import Mathlib

/-!
Verification of the AutismPeriodicities recurrence-analysis pipeline
(`RQA.py`, `GeometricScoring.py`) against its specification.

Python dictionaries are embedded as association lists `List (ℕ × ℕ)` with
first-occurrence lookup and insertion-order append, matching Python `dict`
semantics on the operations the code uses.  NumPy float matrices are embedded
over `ℚ` (the pipeline's arithmetic on the paths verified here is exact);
binary matrices over `ℕ` entries 0/1.
-/

/-- Lookup in an association list, first occurrence wins; default 0
(the code only reads keys it has inserted, so the default is never exposed). -/
def dictGet (d : List (ℕ × ℕ)) (k : ℕ) : ℕ :=
  match d with
  | [] => 0
  | p :: rest => if p.1 = k then p.2 else dictGet rest k

/-- Embedding of `if not count in Runs: Runs[count] = 0; Runs[count] += 1`:
increment the value of key `k`, inserting the key at the end (Python dict
insertion order) when absent. -/
def dictIncr (d : List (ℕ × ℕ)) (k : ℕ) : List (ℕ × ℕ) :=
  match d with
  | [] => [(k, 1)]
  | p :: rest => if p.1 = k then (k, p.2 + 1) :: rest else p :: dictIncr rest k

/-- Sum of key·value over a run distribution (`sum(c*d[c] for c in d)`). -/
def dictTotal (d : List (ℕ × ℕ)) : ℕ :=
  (d.map (fun p => p.1 * p.2)).sum

/-- Sum of key·value restricted to keys `≥ pmin`
(`sum(c*d[c] for c in d if c >= pmin)`). -/
def sumKeyed (d : List (ℕ × ℕ)) (pmin : ℕ) : ℕ :=
  ((d.filter (fun p => pmin ≤ p.1)).map (fun p => p.1 * p.2)).sum

/-- Sum of value restricted to keys `≥ pmin`
(`sum(d[c] for c in d if c >= pmin)`). -/
def countKeyed (d : List (ℕ × ℕ)) (pmin : ℕ) : ℕ :=
  ((d.filter (fun p => pmin ≤ p.1)).map Prod.snd).sum

/-- Sum of value over all keys (`sum(d[c] for c in d)`). -/
def countAll (d : List (ℕ × ℕ)) : ℕ :=
  (d.map Prod.snd).sum

/-- Embedding of `np.max([c for c in d])` guarded by `len(d) > 0`:
maximum key of the distribution, 0 when the distribution is empty. -/
def maxKey (d : List (ℕ × ℕ)) : ℕ :=
  if 0 < d.length then (d.map Prod.fst).foldr max 0 else 0

/-- One step of the two-state automaton of `getContinuousRuns` (RQA.py,
lines 61-73).  The state triple is (Runs, state, count) with state 0 =
IN_ZEROS and state 1 = IN_ONES; `runsStep` is the loop body for one `x[i]`. -/
def runsStep : List (ℕ × ℕ) × ℕ × ℕ → ℕ → List (ℕ × ℕ) × ℕ × ℕ
  | (Runs, state, count), xi =>
    if state = 0 then
      if xi = 1 then (Runs, 1, 1) else (Runs, state, count)
    else
      if xi = 0 then (dictIncr Runs count, 0, count)
      else if xi = 1 then (Runs, 1, count + 1)
      else (Runs, state, count)

/-- Embedding of `getContinuousRuns` (RQA.py, lines 49-74): scan a 1-D
sequence with the IN_ZEROS/IN_ONES automaton, recording the length of each
run of 1s at the transition back to a 0. -/
def getContinuousRuns (x : List ℕ) : List (ℕ × ℕ) :=
  (x.foldl runsStep ([], 0, 0)).1

/-- Length of the maximal suffix of 1s of a sequence: the size of the run
still open when the scan reaches the end of the input. -/
def trailingOnes (x : List ℕ) : ℕ :=
  (x.reverse.takeWhile (fun a => a = 1)).length


/-- Entry (i, j) of the (n+1)×(n+1) matrix `D` of `getRQAVerts`:
`D = np.zeros((N+1, N+1)); D[0:N, 0:N] = R`. -/
def padEntry (R : ℕ → ℕ → ℕ) (n i j : ℕ) : ℕ :=
  if i < n ∧ j < n then R i j else 0

/-- Embedding of `D.flatten()` in `getRQAVerts`: NumPy `flatten` is
row-major (C order), so the padded matrix is traversed one full ROW at a
time, each row ending in the padding zero of column n. -/
def flattenPadded (R : ℕ → ℕ → ℕ) (n : ℕ) : List ℕ :=
  ((List.range (n + 1)).map
    (fun i => (List.range (n + 1)).map (fun j => padEntry R n i j))).flatten

/-- Embedding of `getRQAVerts` (RQA.py, lines 76-87): zero-pad R to
(n+1)×(n+1), flatten (row-major), and run-length-encode the result. -/
def getRQAVerts (R : ℕ → ℕ → ℕ) (n : ℕ) : List (ℕ × ℕ) :=
  getContinuousRuns (flattenPadded R n)

/-- The k-th upper off-diagonal of the n×n matrix R, as `np.diagonal(R, k)`:
entries R[j][j+k] for j < n − k. -/
def diagList (R : ℕ → ℕ → ℕ) (n k : ℕ) : List ℕ :=
  (List.range (n - k)).map (fun j => R j (j + k))

/-- The concatenated sequence built by `getRQADiags`: for each offset k in
range(1, n), the k-th upper diagonal followed by a terminating 0. -/
def diagConcat (R : ℕ → ℕ → ℕ) (n : ℕ) : List ℕ :=
  ((List.range' 1 (n - 1)).map (fun k => diagList R n k ++ [0])).flatten

/-- Embedding of `getRQADiags` (RQA.py, lines 89-100). -/
def getRQADiags (R : ℕ → ℕ → ℕ) (n : ℕ) : List (ℕ × ℕ) :=
  getContinuousRuns (diagConcat R n)

/-- Embedding of `zeroDenom` (RQA.py, lines 102-105): a zero denominator is
replaced by 1.0. -/
def zeroDenom (x : ℚ) : ℚ :=
  if x = 0 then 1 else x

/-- Embedding of `np.sum(R == 1)` over the n×n matrix R: the number of
entries equal to 1. -/
def countEq1 (R : ℕ → ℕ → ℕ) (n : ℕ) : ℕ :=
  ((List.range n).map
    (fun i => ((List.range n).map (fun j => if R i j = 1 then 1 else 0)).sum)).sum

/-- Embedding of `np.sum(R[I > J])` in `getRQAStats`: with
`[I, J] = np.meshgrid(np.arange(N), np.arange(N))` the mask `I > J` selects
the entries strictly above the main diagonal (column index > row index),
and their values are summed. -/
def upperSum (R : ℕ → ℕ → ℕ) (n : ℕ) : ℕ :=
  ((List.range n).map
    (fun i => ((List.range n).map (fun j => if i < j then R i j else 0)).sum)).sum

/-- The record of scalar features returned by `getRQAStats` (RQA.py,
lines 107-165).  ENTR involves a real logarithm and is embedded separately
as `getRQAENTR` so the rest of the record stays computable. -/
structure RQAStats where
  RR : ℚ
  DET : ℚ
  LAM : ℚ
  ratioStat : ℚ
  L : ℚ
  TT : ℚ
  Lmax : ℕ
  Vmax : ℕ
  deriving Repr, DecidableEq

/-- Embedding of `getRQAStats` (RQA.py, lines 107-165) minus the ENTR
feature: every ratio applies `zeroDenom` to its denominator exactly where
the source does. -/
def getRQAStats (R : ℕ → ℕ → ℕ) (n dmin vmin : ℕ) : RQAStats :=
  let Verts := getRQAVerts R n
  let Diags := getRQADiags R n
  let SumDiags : ℚ := (sumKeyed Diags dmin : ℕ)
  let SumVerts : ℚ := (sumKeyed Verts vmin : ℕ)
  { RR := (countEq1 R n : ℚ) / ((n * n : ℕ) : ℚ)
  , DET := SumDiags / zeroDenom (upperSum R n : ℚ)
  , LAM := SumVerts / zeroDenom (dictTotal Verts : ℚ)
  , ratioStat := ((n * n : ℕ) : ℚ) * SumDiags / zeroDenom ((countAll Diags : ℚ) ^ 2)
  , L := SumDiags / zeroDenom (countKeyed Diags dmin : ℚ)
  , TT := SumVerts / zeroDenom (countKeyed Verts vmin : ℚ)
  , Lmax := maxKey Diags
  , Vmax := maxKey Verts }

/-- Embedding of the ENTR feature of `getRQAStats` (RQA.py, lines 151-153):
Shannon entropy of the diagonal-length distribution restricted to lengths
≥ dmin, with probabilities normalized by the `zeroDenom`-guarded count. -/
noncomputable def getRQAENTR (R : ℕ → ℕ → ℕ) (n dmin : ℕ) : ℝ :=
  let Diags := getRQADiags R n
  let NDiags : ℚ := zeroDenom (countKeyed Diags dmin : ℚ)
  let ps : List ℝ :=
    (Diags.filter (fun p => dmin ≤ p.1)).map (fun p => (((p.2 : ℚ) / NDiags : ℚ) : ℝ))
  Neg.neg ((ps.map (fun p => p * Real.log p)).sum)


/-- Round-half-to-even on rationals, the semantics of `np.round` used by
`CSMToBinary` when converting the fraction Kappa into a neighbor count. -/
def npRound (x : ℚ) : ℤ :=
  let fl : ℤ := ⌊x⌋
  let frac : ℚ := x - (fl : ℚ)
  if frac < 1/2 then fl
  else if 1/2 < frac then fl + 1
  else if 2 ∣ fl then fl else fl + 1

/-- Number of columns `M = D.shape[1]` of a matrix stored as a list of rows
(NumPy arrays are rectangular, so the first row's length is the shape). -/
def shape2 (D : List (List ℚ)) : ℕ :=
  (D.headD []).length

/-- The neighbor count used by `CSMToBinary` (RQA.py, lines 18-21) when
Kappa ≠ 0: `int(np.round(Kappa*M))` for Kappa < 1, otherwise Kappa itself
(the source passes Kappa directly; it is integral in that branch). -/
def NNeighbsOf (Kappa : ℚ) (M : ℕ) : ℕ :=
  if Kappa < 1 then (npRound (Kappa * (M : ℚ))).toNat else (⌊Kappa⌋).toNat

/-- Strict-then-index order on (value, column) pairs: the total order under
which the selection of `np.argpartition(D, NNeighbs, 1)[:, 0:NNeighbs]` is
realised.  `argpartition` guarantees only that the selected columns hold the
NNeighbs smallest values of the row, ties at the boundary arbitrary; this
embedding fixes the tie-break by column index. -/
def pairLe (a b : ℚ × ℕ) : Prop :=
  a.1 < b.1 ∨ (a.1 = b.1 ∧ a.2 ≤ b.2)

instance : DecidableRel pairLe :=
  fun a b => inferInstanceAs (Decidable (_ ∨ _))

instance : IsTotal (ℚ × ℕ) pairLe where
  total a b := by
    rcases lt_trichotomy a.1 b.1 with h | h | h
    · exact Or.inl (Or.inl h)
    · rcases Nat.le_total a.2 b.2 with h2 | h2
      · exact Or.inl (Or.inr ⟨h, h2⟩)
      · exact Or.inr (Or.inr ⟨h.symm, h2⟩)
    · exact Or.inr (Or.inl h)

instance : IsTrans (ℚ × ℕ) pairLe where
  trans a b c hab hbc := by
    rcases hab with h1 | ⟨h1, h1'⟩
    · rcases hbc with h2 | ⟨h2, _⟩
      · exact Or.inl (h1.trans h2)
      · exact Or.inl (h2 ▸ h1)
    · rcases hbc with h2 | ⟨h2, h2'⟩
      · exact Or.inl (h1 ▸ h2)
      · exact Or.inr ⟨h1.trans h2, h1'.trans h2'⟩

/-- The (value, column) pairs of one row, in column order. -/
def rowPairs (row : List ℚ) : List (ℚ × ℕ) :=
  row.enum.map (fun p => (p.2, p.1))

/-- Columns selected for one row by the k-nearest-neighbor binarization:
the column indices of the k smallest (value, column) pairs. -/
def rowSelect (row : List ℚ) (k : ℕ) : List ℕ :=
  (((rowPairs row).insertionSort pairLe).take k).map Prod.snd

/-- Embedding of `CSMToBinary` (RQA.py, lines 7-27): Kappa = 0 gives the
all-ones N×M matrix; otherwise the NNeighbs smallest entries of each row are
set to 1 through the sparse coo construction and all other entries are 0. -/
def CSMToBinary (D : List (List ℚ)) (Kappa : ℚ) : List (List ℕ) :=
  if Kappa = 0 then List.replicate D.length (List.replicate (shape2 D) 1)
  else
    D.map (fun row =>
      (List.range (shape2 D)).map
        (fun j => if j ∈ rowSelect row (NNeighbsOf Kappa (shape2 D)) then 1 else 0))

/-- Squared-norm of a point (one row of X): `np.sum(X**2, 1)` at that row. -/
def rowNormSq (r : List ℚ) : ℚ :=
  (List.zipWith (fun a b => a * b) r r).sum

/-- Dot product of two points: one entry of `X.dot(Y.T)`. -/
def dotProd (r s : List ℚ) : ℚ :=
  (List.zipWith (fun a b => a * b) r s).sum

/-- Entry (i, j) of `C = np.sum(X**2,1)[:,None] + np.sum(Y**2,1)[None,:]
- 2*X.dot(Y.T)` in `getCSM` (GeometricScoring.py, line 45). -/
def csmSq (X Y : List (List ℚ)) (i j : ℕ) : ℚ :=
  rowNormSq (X.getD i []) + rowNormSq (Y.getD j []) -
    2 * dotProd (X.getD i []) (Y.getD j [])

/-- Entry (i, j) of C after the clamp `C[C < 0] = 0`
(GeometricScoring.py, line 46). -/
def csmClamped (X Y : List (List ℚ)) (i j : ℕ) : ℚ :=
  if csmSq X Y i j < 0 then 0 else csmSq X Y i j

/-- Embedding of `getCSM` (GeometricScoring.py, lines 37-47): entry (i, j)
of `np.sqrt(C)` after the clamp. -/
noncomputable def getCSM (X Y : List (List ℚ)) (i j : ℕ) : ℝ :=
  Real.sqrt ((csmClamped X Y i j : ℚ) : ℝ)

/-- Embedding of `getPersistencesBlock` (GeometricScoring.py, lines 84-100).
Modelled from the spec: the sliding-window embedding and the degree-1
persistent-homology routine `doRipsFiltrationDM` are external collaborators
(SlidingWindowVideoTDA), so the computed self-similarity matrix `D` and the
outcome of the homology call are parameters; `Except.error` is the homology
routine raising.  The body mirrors the source exactly: `Pers` and `I` are
initialised to 0 and `[[0, 0]]`, the `try` block overwrites them on success
(`np.max(I[:,1]-I[:,0])` guarded by `I.size > 0`), and the `except` clause
catches any failure, leaving the initial values in the returned record. -/
def getPersistencesBlock {α : Type} (D : α)
    (hom : Except Unit (List (ℚ × ℚ))) : α × ℚ × List (ℚ × ℚ) :=
  match hom with
  | Except.error _ => (D, 0, [((0 : ℚ), (0 : ℚ))])
  | Except.ok I =>
      (D,
       (match I.map (fun p => p.2 - p.1) with
        | [] => 0
        | g :: gs => gs.foldl max g),
       I)

/-- Modelled from the spec: merge of run distributions "by summing counts
per length"; adds count v to key k with first-occurrence update. -/
def dictAddVal (d : List (ℕ × ℕ)) (k v : ℕ) : List (ℕ × ℕ) :=
  match d with
  | [] => [(k, v)]
  | p :: rest => if p.1 = k then (k, p.2 + v) :: rest else p :: dictAddVal rest k v

/-- Modelled from the spec: merge two run-length distributions by summing
counts per length. -/
def dictMergeAdd (d1 d2 : List (ℕ × ℕ)) : List (ℕ × ℕ) :=
  d2.foldl (fun d p => dictAddVal d p.1 p.2) d1

/-- Modelled from the spec: run-length-encode each COLUMN of the padded
(n+1)×(n+1) matrix independently, then merge the distributions by summing
counts per length — the behavior the spec ascribes to `getRQAVerts`. -/
def columnRunsMerged (R : ℕ → ℕ → ℕ) (n : ℕ) : List (ℕ × ℕ) :=
  ((List.range (n + 1)).map
    (fun j => getContinuousRuns
      ((List.range (n + 1)).map (fun i => padEntry R n i j)))).foldl dictMergeAdd []

/-- Claim C1: the claim expects the run-length distribution of
[0,1,1,0,1,0,0,1,1,1] to contain one run of length 3, but the trailing run
of three 1s is still open when the scan ends and is never recorded: its
count is 0, so the claimed distribution {2:1, 1:1, 3:1} is wrong. -/
theorem C1_counterexample :
    dictGet (getContinuousRuns [0, 1, 1, 0, 1, 0, 0, 1, 1, 1]) 3 ≠ 1 := by
  decide

/-- Claim C1 (amended): for the input sequence [0,1,1,0,1,0,0,1,1,1],
`getContinuousRuns` returns the distribution {2:1, 1:1} — one closed run of
length 2 and one closed run of length 1; the final run of length 3 is still
open at the end of the sequence and is not recorded. -/
theorem C1_runs_example :
    getContinuousRuns [0, 1, 1, 0, 1, 0, 0, 1, 1, 1] = [(2, 1), (1, 1)] := by
  decide

/-- Claim C2: `getRQAVerts` does NOT merge the per-column run distributions.
NumPy `flatten()` is row-major, so the padded matrix is scanned row by row:
for R = [[1,1],[0,0]] the code records one HORIZONTAL run of length 2,
while the per-column merge the claim (and the function's own docstring,
"vertical 1s") describes yields two runs of length 1. -/
theorem C2_row_major_flatten :
    getRQAVerts (fun i _ => if i = 0 then 1 else 0) 2 = [(2, 1)] ∧
    columnRunsMerged (fun i _ => if i = 0 then 1 else 0) 2 = [(1, 2)] := by
  decide

/-- Claim C4: the claim expects an empty feature list when the homology
routine fails, but `I` is initialised to the sentinel `[[0, 0]]` and the
`except` branch leaves it untouched, so the returned feature list is the
one-element sentinel, not the empty list. -/
theorem C4_counterexample :
    (getPersistencesBlock (0 : ℚ) (Except.error ())).2.2 ≠ [] := by
  decide

/-- Claim C4 (amended): if the external degree-1 persistent-homology
routine raises, `getPersistencesBlock` catches the failure and returns the
computed self-similarity matrix, persistence score 0, and the sentinel
feature list [(0, 0)] (one zero-persistence pair), not an empty list. -/
theorem C4_exception_degrades {α : Type} (D : α) :
    getPersistencesBlock D (Except.error ()) = (D, 0, [((0 : ℚ), (0 : ℚ))]) :=
  rfl

/-- Claim C7: for Kappa = 0, `CSMToBinary` returns the all-ones matrix of
the input's N×M shape. -/
theorem C7_kappa_zero_all_ones (D : List (List ℚ)) :
    CSMToBinary D 0 = List.replicate D.length (List.replicate (shape2 D) 1) := by
  simp [CSMToBinary]

/-- The automaton ignores a stream of 0s while in state IN_ZEROS. -/
lemma foldl_runsStep_zeros (l : List ℕ) (hl : ∀ a ∈ l, a = 0)
    (d : List (ℕ × ℕ)) (c : ℕ) : l.foldl runsStep (d, 0, c) = (d, 0, c) := by
  induction l generalizing d c with
  | nil => rfl
  | cons a t ih =>
      have ha : a = 0 := hl a (by simp)
      subst ha
      have hstep : runsStep (d, 0, c) 0 = (d, 0, c) := by simp [runsStep]
      rw [List.foldl_cons, hstep]
      exact ih (fun b hb => hl b (by simp [hb])) d c

lemma flattenPadded_zero (n : ℕ) :
    ∀ a ∈ flattenPadded (fun _ _ => 0) n, a = 0 := by
  intro a ha
  simp only [flattenPadded, padEntry, List.mem_flatten, List.mem_map,
    List.mem_range] at ha
  obtain ⟨l, ⟨i, _, rfl⟩, hal⟩ := ha
  simp only [List.mem_map, List.mem_range] at hal
  obtain ⟨j, _, rfl⟩ := hal
  simp

lemma diagConcat_zero (n : ℕ) :
    ∀ a ∈ diagConcat (fun _ _ => 0) n, a = 0 := by
  intro a ha
  simp only [diagConcat, diagList, List.mem_flatten, List.mem_map] at ha
  obtain ⟨l, ⟨k, _, rfl⟩, hal⟩ := ha
  rcases List.mem_append.1 hal with h | h
  · simp only [List.mem_map, List.mem_range] at h
    obtain ⟨j, _, rfl⟩ := h
    rfl
  · simpa using h

lemma getContinuousRuns_zeros (l : List ℕ) (hl : ∀ a ∈ l, a = 0) :
    getContinuousRuns l = [] := by
  unfold getContinuousRuns
  rw [foldl_runsStep_zeros l hl]

lemma getRQAVerts_zero (n : ℕ) : getRQAVerts (fun _ _ => 0) n = [] :=
  getContinuousRuns_zeros _ (flattenPadded_zero n)

lemma getRQADiags_zero (n : ℕ) : getRQADiags (fun _ _ => 0) n = [] :=
  getContinuousRuns_zeros _ (diagConcat_zero n)

lemma upperSum_zero (n : ℕ) : upperSum (fun _ _ => 0) n = 0 := by
  simp [upperSum]

lemma countEq1_zero (n : ℕ) : countEq1 (fun _ _ => 0) n = 0 := by
  simp [countEq1]

/-- Claim C3 (amended): for the all-zero N×N matrix (N ≥ 1) and any minimum
lengths dmin and vmin, `getRQAStats` returns RR = 0, DET = 0, LAM = 0,
Lmax = 0, Vmax = 0 and ENTR = 0.  The zero-denominator guard replaces each
zero denominator by 1, but the numerators are also 0, so the guarded ratios
are 0, not 1. -/
theorem C3_all_zero_stats (n dmin vmin : ℕ) (hn : 1 ≤ n) :
    (getRQAStats (fun _ _ => 0) n dmin vmin).RR = 0 ∧
    (getRQAStats (fun _ _ => 0) n dmin vmin).DET = 0 ∧
    (getRQAStats (fun _ _ => 0) n dmin vmin).LAM = 0 ∧
    (getRQAStats (fun _ _ => 0) n dmin vmin).Lmax = 0 ∧
    (getRQAStats (fun _ _ => 0) n dmin vmin).Vmax = 0 ∧
    getRQAENTR (fun _ _ => 0) n dmin = 0 := by
  simp [getRQAStats, getRQAENTR, getRQAVerts_zero, getRQADiags_zero,
    upperSum_zero, countEq1_zero, sumKeyed, maxKey, getRQAENTR]

/-- Witness for claim C3 at N = 1, dmin = vmin = 1. -/
theorem C3_all_zero_stats_witness :
    1 ≤ 1 ∧
    ((getRQAStats (fun _ _ => 0) 1 1 1).RR = 0 ∧
     (getRQAStats (fun _ _ => 0) 1 1 1).DET = 0 ∧
     (getRQAStats (fun _ _ => 0) 1 1 1).LAM = 0 ∧
     (getRQAStats (fun _ _ => 0) 1 1 1).Lmax = 0 ∧
     (getRQAStats (fun _ _ => 0) 1 1 1).Vmax = 0 ∧
     getRQAENTR (fun _ _ => 0) 1 1 = 0) :=
  ⟨le_refl 1, C3_all_zero_stats 1 1 1 (le_refl 1)⟩

/-- Claim C3: the claim expects DET = 1.0 for the all-zero matrix, but the
zero-denominator guard only replaces the denominator by 1; the numerator
SumDiags is 0 for the all-zero matrix, so DET = 0/1 = 0, not 1. -/
theorem C3_counterexample :
    (getRQAStats (fun _ _ => 0) 2 1 1).DET ≠ 1 := by
  have h : (getRQAStats (fun _ _ => 0) 2 1 1).DET = 0 := by
    simp [getRQAStats, getRQADiags_zero, upperSum_zero, sumKeyed]
  rw [h]
  norm_num

/-- Claim C10: for 0 < Kappa < 1 with round(Kappa·M) = 0, `CSMToBinary`
selects 0 neighbors per row and returns the all-zero N×M matrix — in
contrast with Kappa = 0, which returns the all-ones matrix. -/
theorem C10_small_kappa_all_zero (D : List (List ℚ)) (K : ℚ)
    (h0 : 0 < K) (h1 : K < 1) (hr : npRound (K * (shape2 D : ℚ)) = 0) :
    CSMToBinary D K = List.replicate D.length (List.replicate (shape2 D) 0) := by
  have hK0 : K ≠ 0 := ne_of_gt h0
  have hNN : NNeighbsOf K (shape2 D) = 0 := by
    simp [NNeighbsOf, h1, hr]
  unfold CSMToBinary
  rw [if_neg hK0]
  have hrow : ∀ row : List ℚ,
      (List.range (shape2 D)).map
        (fun j => if j ∈ rowSelect row (NNeighbsOf K (shape2 D)) then 1 else 0)
      = List.replicate (shape2 D) 0 := by
    intro row
    rw [hNN]
    have hsel : rowSelect row 0 = [] := by simp [rowSelect]
    simp [hsel, List.eq_replicate_iff]
  calc D.map (fun row => (List.range (shape2 D)).map
        (fun j => if j ∈ rowSelect row (NNeighbsOf K (shape2 D)) then 1 else 0))
      = D.map (fun _ => List.replicate (shape2 D) 0) := by
        exact List.map_congr_left (fun row _ => hrow row)
    _ = List.replicate D.length (List.replicate (shape2 D) 0) := by
        simp [List.map_const']

/-- Witness for claim C10 at D = [[3]] and Kappa = 1/4 (M = 1, so
round(Kappa·M) = round(1/4) = 0). -/
theorem C10_small_kappa_all_zero_witness :
    (0 : ℚ) < 1/4 ∧ (1/4 : ℚ) < 1 ∧
    npRound ((1/4 : ℚ) * (shape2 [[(3 : ℚ)]] : ℚ)) = 0 ∧
    CSMToBinary [[(3 : ℚ)]] (1/4) =
      List.replicate (List.length [[(3 : ℚ)]])
        (List.replicate (shape2 [[(3 : ℚ)]]) 0) := by
  refine ⟨by norm_num, by norm_num, by norm_num [npRound, shape2], ?_⟩
  exact C10_small_kappa_all_zero [[(3 : ℚ)]] (1/4) (by norm_num) (by norm_num)
    (by norm_num [npRound, shape2])

/-- A stream of 1s never changes the recorded distribution: it only opens
or extends the current run. -/
lemma foldl_runsStep_ones (k : ℕ) (st : List (ℕ × ℕ) × ℕ × ℕ) :
    ((List.replicate k 1).foldl runsStep st).1 = st.1 := by
  induction k generalizing st with
  | zero => rfl
  | succ m ih =>
      have hstep : (runsStep st 1).1 = st.1 := by
        obtain ⟨d, s, c⟩ := st
        by_cases hs : s = 0 <;> simp [runsStep, hs]
      rw [List.replicate_succ, List.foldl_cons, ih, hstep]

lemma trailingOnes_append_zero (l : List ℕ) : trailingOnes (l ++ [0]) = 0 := by
  simp [trailingOnes, List.reverse_append]

lemma trailingOnes_append_one (l : List ℕ) :
    trailingOnes (l ++ [1]) = trailingOnes l + 1 := by
  simp [trailingOnes, List.reverse_append]

/-- After scanning a binary sequence the automaton is in IN_ZEROS iff the
sequence has no open trailing run of 1s, and in IN_ONES with `count` equal
to the length of that trailing run otherwise. -/
lemma runsState_eq_trailing (x : List ℕ) (hx : ∀ a ∈ x, a = 0 ∨ a = 1) :
    (trailingOnes x = 0 ∧ (x.foldl runsStep ([], 0, 0)).2.1 = 0) ∨
    (0 < trailingOnes x ∧ (x.foldl runsStep ([], 0, 0)).2.1 = 1 ∧
      (x.foldl runsStep ([], 0, 0)).2.2 = trailingOnes x) := by
  induction x using List.reverseRecOn with
  | nil => exact Or.inl ⟨rfl, rfl⟩
  | append_singleton l a ih =>
      have hmem : ∀ b ∈ l, b = 0 ∨ b = 1 :=
        fun b hb => hx b (List.mem_append_left _ hb)
      have ha : a = 0 ∨ a = 1 := hx a (List.mem_append_right _ (by simp))
      rw [List.foldl_append]
      rcases ha with ha | ha <;> subst ha
      · left
        refine ⟨trailingOnes_append_zero l, ?_⟩
        obtain ⟨d, s, c⟩ : List (ℕ × ℕ) × ℕ × ℕ := l.foldl runsStep ([], 0, 0)
        by_cases hs : s = 0 <;> simp [runsStep, hs]
      · right
        rw [trailingOnes_append_one]
        rcases ih hmem with ⟨ht, hs⟩ | ⟨ht, hs, hc⟩
        · rw [ht]
          revert hs
          obtain ⟨d, s, c⟩ : List (ℕ × ℕ) × ℕ × ℕ := l.foldl runsStep ([], 0, 0)
          intro hs
          simp only at hs
          subst hs
          simp [runsStep]
        · revert hs hc
          obtain ⟨d, s, c⟩ : List (ℕ × ℕ) × ℕ × ℕ := l.foldl runsStep ([], 0, 0)
          intro hs hc
          simp only at hs hc
          subst hs
          subst hc
          simp [runsStep]

/-- Claim C5: a maximal run of 1s is recorded only at the transition back
to a 0 — appending a terminating 0 increments the count of the open run's
length (when one is open) — and a run still open at the end of the sequence
is never recorded: appending any number of further 1s leaves the returned
distribution unchanged. -/
theorem C5_runs_recorded_at_transition (x : List ℕ)
    (hx : ∀ a ∈ x, a = 0 ∨ a = 1) (k : ℕ) :
    getContinuousRuns (x ++ List.replicate k 1) = getContinuousRuns x ∧
    getContinuousRuns (x ++ [0]) =
      (if trailingOnes x = 0 then getContinuousRuns x
       else dictIncr (getContinuousRuns x) (trailingOnes x)) := by
  constructor
  · unfold getContinuousRuns
    rw [List.foldl_append]
    exact foldl_runsStep_ones k _
  · unfold getContinuousRuns
    rw [List.foldl_append]
    rcases runsState_eq_trailing x hx with ⟨ht, hs⟩ | ⟨ht, hs, hc⟩
    · rw [if_pos ht]
      revert hs
      obtain ⟨d, s, c⟩ : List (ℕ × ℕ) × ℕ × ℕ := x.foldl runsStep ([], 0, 0)
      intro hs
      simp only at hs
      subst hs
      simp [runsStep]
    · rw [if_neg (by omega)]
      revert hs hc
      obtain ⟨d, s, c⟩ : List (ℕ × ℕ) × ℕ × ℕ := x.foldl runsStep ([], 0, 0)
      intro hs hc
      simp only at hs hc
      subst hs
      rw [← hc]
      simp [runsStep]

/-- Witness for claim C5 at x = [1,1,0,1] (trailing open run of length 1)
and k = 2. -/
theorem C5_runs_recorded_at_transition_witness :
    (∀ a ∈ [1, 1, 0, 1], a = 0 ∨ a = 1) ∧
    (getContinuousRuns ([1, 1, 0, 1] ++ List.replicate 2 1) =
        getContinuousRuns [1, 1, 0, 1] ∧
     getContinuousRuns ([1, 1, 0, 1] ++ [0]) =
       (if trailingOnes [1, 1, 0, 1] = 0 then getContinuousRuns [1, 1, 0, 1]
        else dictIncr (getContinuousRuns [1, 1, 0, 1])
          (trailingOnes [1, 1, 0, 1]))) :=
  ⟨by decide, C5_runs_recorded_at_transition [1, 1, 0, 1] (by decide) 2⟩

lemma dictTotal_dictIncr (d : List (ℕ × ℕ)) (k : ℕ) :
    dictTotal (dictIncr d k) = dictTotal d + k := by
  induction d with
  | nil => simp [dictIncr, dictTotal]
  | cons p rest ih =>
      by_cases h : p.1 = k
      · simp only [dictIncr, if_pos h, dictTotal, List.map_cons, List.sum_cons]
        subst h
        ring
      · simp only [dictIncr, if_neg h, dictTotal, List.map_cons, List.sum_cons] at *
        omega

/-- Conservation of 1s through the scan of a binary sequence: the total
key·count mass recorded so far plus the size of the still-open run equals
the number of 1s consumed. -/
lemma dictTotal_foldl_runsStep (x : List ℕ) (hx : ∀ a ∈ x, a = 0 ∨ a = 1) :
    ∀ st : List (ℕ × ℕ) × ℕ × ℕ,
      dictTotal (x.foldl runsStep st).1 +
        (if (x.foldl runsStep st).2.1 = 0 then 0 else (x.foldl runsStep st).2.2)
      = dictTotal st.1 + (if st.2.1 = 0 then 0 else st.2.2) + x.sum := by
  induction x with
  | nil => intro st; simp
  | cons a t ih =>
      intro st
      obtain ⟨d, s, c⟩ := st
      have hmem : ∀ b ∈ t, b = 0 ∨ b = 1 := fun b hb => hx b (by simp [hb])
      rcases hx a (by simp) with ha | ha <;> subst ha
      · by_cases hs : s = 0
        · subst hs
          have hstep : runsStep (d, 0, c) 0 = (d, 0, c) := by simp [runsStep]
          rw [List.foldl_cons, hstep, ih hmem (d, 0, c)]
          simp
        · have hstep : runsStep (d, s, c) 0 = (dictIncr d c, 0, c) := by
            simp [runsStep, hs]
          rw [List.foldl_cons, hstep, ih hmem (dictIncr d c, 0, c)]
          simp [dictTotal_dictIncr, hs]
      · by_cases hs : s = 0
        · subst hs
          have hstep : runsStep (d, 0, c) 1 = (d, 1, 1) := by simp [runsStep]
          rw [List.foldl_cons, hstep, ih hmem (d, 1, 1)]
          simp
          omega
        · have hstep : runsStep (d, s, c) 1 = (d, 1, c + 1) := by
            simp [runsStep, hs]
          rw [List.foldl_cons, hstep, ih hmem (d, 1, c + 1)]
          simp [hs]
          omega

/-- The recorded key·count mass never exceeds the number of 1s scanned. -/
lemma dictTotal_getContinuousRuns_le (x : List ℕ)
    (hx : ∀ a ∈ x, a = 0 ∨ a = 1) :
    dictTotal (getContinuousRuns x) ≤ x.sum := by
  have h := dictTotal_foldl_runsStep x hx ([], 0, 0)
  have h0 : dictTotal (([], 0, 0) : List (ℕ × ℕ) × ℕ × ℕ).1 +
      (if (([], 0, 0) : List (ℕ × ℕ) × ℕ × ℕ).2.1 = 0 then 0
       else (([], 0, 0) : List (ℕ × ℕ) × ℕ × ℕ).2.2) = 0 := rfl
  rw [h0, zero_add] at h
  unfold getContinuousRuns
  omega

lemma sumKeyed_le_dictTotal (d : List (ℕ × ℕ)) (pmin : ℕ) :
    sumKeyed d pmin ≤ dictTotal d := by
  induction d with
  | nil => simp [sumKeyed, dictTotal]
  | cons p rest ih =>
      by_cases h : pmin ≤ p.1
      · simp only [sumKeyed, dictTotal, List.filter_cons, List.map_cons,
          List.sum_cons, decide_eq_true_eq, if_pos h] at *
        omega
      · simp only [sumKeyed, dictTotal, List.filter_cons, List.map_cons,
          List.sum_cons, decide_eq_true_eq, if_neg h] at *
        omega

lemma sum_map_range {M : Type} [AddCommMonoid M] (f : ℕ → M) (n : ℕ) :
    ((List.range n).map f).sum = ∑ i ∈ Finset.range n, f i := by
  induction n with
  | zero => simp
  | succ m ih =>
      rw [List.range_succ, List.map_append, List.sum_append,
        Finset.sum_range_succ, ih]
      simp

/-- The concatenated upper diagonals carry exactly the entries strictly
above the main diagonal: their sum equals `np.sum(R[I > J])`. -/
lemma diagConcat_sum_eq_upperSum (R : ℕ → ℕ → ℕ) (n : ℕ) :
    (diagConcat R n).sum = upperSum R n := by
  have h1 : (diagConcat R n).sum
      = ∑ k ∈ Finset.Ico 1 n, ∑ j ∈ Finset.range (n - k), R j (j + k) := by
    rw [diagConcat, List.sum_flatten, List.range'_eq_map_range, List.map_map,
      List.map_map, sum_map_range, Finset.sum_Ico_eq_sum_range]
    refine Finset.sum_congr rfl (fun t _ => ?_)
    simp only [Function.comp]
    rw [List.sum_append, diagList, sum_map_range]
    simp
  have h2 : upperSum R n
      = ∑ i ∈ Finset.range n, ∑ j ∈ Finset.range n,
          (if i < j then R i j else 0) := by
    rw [upperSum, sum_map_range]
    refine Finset.sum_congr rfl (fun i _ => ?_)
    rw [sum_map_range]
  rw [h1, h2]
  rw [Finset.sum_sigma' (Finset.Ico 1 n) (fun k => Finset.range (n - k))
    (fun k j => R j (j + k))]
  have h3 : ∑ i ∈ Finset.range n, ∑ j ∈ Finset.range n,
      (if i < j then R i j else 0)
      = ∑ p ∈ (Finset.range n ×ˢ Finset.range n).filter
          (fun p => p.1 < p.2), R p.1 p.2 := by
    rw [Finset.sum_filter, ← Finset.sum_product']
  rw [h3]
  refine Finset.sum_nbij' (fun x => (x.2, x.2 + x.1)) (fun p => ⟨p.2 - p.1, p.1⟩)
    ?_ ?_ ?_ ?_ ?_
  · rintro ⟨k, j⟩ hkj
    simp only [Finset.mem_sigma, Finset.mem_Ico, Finset.mem_range] at hkj
    simp only [Finset.mem_filter, Finset.mem_product, Finset.mem_range]
    omega
  · rintro ⟨i, j⟩ hij
    simp only [Finset.mem_filter, Finset.mem_product, Finset.mem_range] at hij
    simp only [Finset.mem_sigma, Finset.mem_Ico, Finset.mem_range]
    omega
  · rintro ⟨k, j⟩ hkj
    simp only [Finset.mem_sigma, Finset.mem_Ico, Finset.mem_range] at hkj
    have h4 : j + k - j = k := by omega
    simp [h4]
  · rintro ⟨i, j⟩ hij
    simp only [Finset.mem_filter, Finset.mem_product, Finset.mem_range] at hij
    have h4 : i + (j - i) = j := by omega
    simp [h4]
  · rintro ⟨k, j⟩ _
    rfl

lemma diagConcat_binary (R : ℕ → ℕ → ℕ) (n : ℕ)
    (hbin : ∀ i j, R i j = 0 ∨ R i j = 1) :
    ∀ a ∈ diagConcat R n, a = 0 ∨ a = 1 := by
  intro a ha
  simp only [diagConcat, diagList, List.mem_flatten, List.mem_map] at ha
  obtain ⟨l, ⟨k, _, rfl⟩, hal⟩ := ha
  rcases List.mem_append.1 hal with h | h
  · simp only [List.mem_map, List.mem_range] at h
    obtain ⟨j, _, rfl⟩ := h
    exact hbin j (j + k)
  · left
    simpa using h

lemma flattenPadded_binary (R : ℕ → ℕ → ℕ) (n : ℕ)
    (hbin : ∀ i j, R i j = 0 ∨ R i j = 1) :
    ∀ a ∈ flattenPadded R n, a = 0 ∨ a = 1 := by
  intro a ha
  simp only [flattenPadded, List.mem_flatten, List.mem_map, List.mem_range] at ha
  obtain ⟨l, ⟨i, _, rfl⟩, hal⟩ := ha
  simp only [List.mem_map, List.mem_range] at hal
  obtain ⟨j, _, rfl⟩ := hal
  unfold padEntry
  split
  · exact hbin i j
  · exact Or.inl rfl

/-- A guarded ratio of naturals with numerator ≤ denominator lies in
[0, 1]: when the denominator is 0 the numerator is forced to 0 and the
guard gives 0/1 = 0. -/
lemma div_zeroDenom_bounds (a b : ℕ) (hab : a ≤ b) :
    0 ≤ (a : ℚ) / zeroDenom (b : ℚ) ∧ (a : ℚ) / zeroDenom (b : ℚ) ≤ 1 := by
  rcases Nat.eq_zero_or_pos b with hb | hb
  · subst hb
    have ha : a = 0 := Nat.le_zero.mp hab
    subst ha
    norm_num [zeroDenom]
  · have hbq : (b : ℚ) ≠ 0 := by
      exact_mod_cast Nat.pos_iff_ne_zero.mp hb
    rw [zeroDenom, if_neg hbq]
    refine ⟨by positivity, ?_⟩
    rw [div_le_one (by exact_mod_cast hb)]
    exact_mod_cast hab

/-- Claim C9: for every binary N×N matrix (N ≥ 1) and all minimum lengths,
the diagonal numerator SumDiags never exceeds the count of 1s strictly
above the main diagonal, the vertical numerator SumVerts never exceeds the
sum over all run lengths, and consequently DET and LAM both lie in [0, 1]
(when a denominator is 0 its numerator is also 0, so the guarded ratio
is 0). -/
theorem C9_det_lam_in_unit_interval (R : ℕ → ℕ → ℕ) (n dmin vmin : ℕ)
    (hbin : ∀ i j, R i j = 0 ∨ R i j = 1) (hn : 1 ≤ n) :
    sumKeyed (getRQADiags R n) dmin ≤ upperSum R n ∧
    sumKeyed (getRQAVerts R n) vmin ≤ dictTotal (getRQAVerts R n) ∧
    0 ≤ (getRQAStats R n dmin vmin).DET ∧ (getRQAStats R n dmin vmin).DET ≤ 1 ∧
    0 ≤ (getRQAStats R n dmin vmin).LAM ∧ (getRQAStats R n dmin vmin).LAM ≤ 1 := by
  have hD : sumKeyed (getRQADiags R n) dmin ≤ upperSum R n := by
    calc sumKeyed (getRQADiags R n) dmin
        ≤ dictTotal (getRQADiags R n) := sumKeyed_le_dictTotal _ _
      _ ≤ (diagConcat R n).sum :=
          dictTotal_getContinuousRuns_le _ (diagConcat_binary R n hbin)
      _ = upperSum R n := diagConcat_sum_eq_upperSum R n
  have hV := sumKeyed_le_dictTotal (getRQAVerts R n) vmin
  have hDET : (getRQAStats R n dmin vmin).DET
      = (sumKeyed (getRQADiags R n) dmin : ℚ) / zeroDenom (upperSum R n : ℚ) :=
    rfl
  have hLAM : (getRQAStats R n dmin vmin).LAM
      = (sumKeyed (getRQAVerts R n) vmin : ℚ) /
          zeroDenom (dictTotal (getRQAVerts R n) : ℚ) :=
    rfl
  obtain ⟨hd0, hd1⟩ := div_zeroDenom_bounds _ _ hD
  obtain ⟨hl0, hl1⟩ := div_zeroDenom_bounds _ _ hV
  rw [hDET, hLAM]
  exact ⟨hD, hV, hd0, hd1, hl0, hl1⟩

/-- Witness for claim C9 at the all-ones 1×1 matrix, dmin = vmin = 1. -/
theorem C9_det_lam_in_unit_interval_witness :
    (∀ i j : ℕ, (fun _ _ => 1 : ℕ → ℕ → ℕ) i j = 0 ∨
        (fun _ _ => 1 : ℕ → ℕ → ℕ) i j = 1) ∧ 1 ≤ 1 ∧
    (sumKeyed (getRQADiags (fun _ _ => 1) 1) 1 ≤ upperSum (fun _ _ => 1) 1 ∧
     sumKeyed (getRQAVerts (fun _ _ => 1) 1) 1 ≤
       dictTotal (getRQAVerts (fun _ _ => 1) 1) ∧
     0 ≤ (getRQAStats (fun _ _ => 1) 1 1 1).DET ∧
     (getRQAStats (fun _ _ => 1) 1 1 1).DET ≤ 1 ∧
     0 ≤ (getRQAStats (fun _ _ => 1) 1 1 1).LAM ∧
     (getRQAStats (fun _ _ => 1) 1 1 1).LAM ≤ 1) :=
  ⟨fun _ _ => Or.inr rfl, le_refl 1,
   C9_det_lam_in_unit_interval (fun _ _ => 1) 1 1 1 (fun _ _ => Or.inr rfl)
     (le_refl 1)⟩

lemma csmSq_self_diag (X : List (List ℚ)) (i : ℕ) : csmSq X X i i = 0 := by
  unfold csmSq
  rw [show dotProd (X.getD i []) (X.getD i []) = rowNormSq (X.getD i []) from rfl]
  ring

lemma csmClamped_self_diag (X : List (List ℚ)) (i : ℕ) :
    csmClamped X X i i = 0 := by
  simp [csmClamped, csmSq_self_diag]

/-- Claim C8: every entry of the cross-similarity matrix is non-negative —
already before the square root, because `C[C < 0] = 0` clamps the expansion
‖x‖² + ‖y‖² − 2x·y — and the main diagonal of `getCSM(X, X)` is identically
zero (the expansion cancels exactly on the diagonal). -/
theorem C8_csm_nonneg_zero_diag (X Y : List (List ℚ)) (i j : ℕ) :
    0 ≤ csmClamped X Y i j ∧ 0 ≤ getCSM X Y i j ∧ getCSM X X i i = 0 := by
  refine ⟨?_, Real.sqrt_nonneg _, ?_⟩
  · unfold csmClamped
    split
    · exact le_refl 0
    · linarith [not_lt.mp (by assumption : ¬ csmSq X Y i j < 0)]
  · rw [getCSM, csmClamped_self_diag]
    simp

lemma rowPairs_map_snd (row : List ℚ) :
    (rowPairs row).map Prod.snd = List.range row.length := by
  simp only [rowPairs, List.map_map]
  have h : (Prod.snd ∘ fun p : ℕ × ℚ => (p.2, p.1)) = Prod.fst := rfl
  rw [h, List.enum_map_fst]

lemma sorted_map_snd_perm (row : List ℚ) :
    (((rowPairs row).insertionSort pairLe).map Prod.snd).Perm
      (List.range row.length) := by
  rw [← rowPairs_map_snd]
  exact (List.perm_insertionSort pairLe (rowPairs row)).map Prod.snd

lemma rowSelect_eq_take (row : List ℚ) (NN : ℕ) :
    rowSelect row NN
      = (((rowPairs row).insertionSort pairLe).map Prod.snd).take NN := by
  rw [rowSelect, List.map_take]

lemma rowSelect_nodup (row : List ℚ) (NN : ℕ) : (rowSelect row NN).Nodup := by
  rw [rowSelect_eq_take]
  exact List.Nodup.sublist (List.take_sublist _ _)
    ((sorted_map_snd_perm row).nodup_iff.mpr (List.nodup_range _))

lemma rowSelect_length (row : List ℚ) (NN : ℕ) (h : NN ≤ row.length) :
    (rowSelect row NN).length = NN := by
  rw [rowSelect_eq_take, List.length_take]
  have hlen : (((rowPairs row).insertionSort pairLe).map Prod.snd).length
      = row.length := by
    rw [List.length_map, List.length_insertionSort, rowPairs, List.length_map,
      List.enum_length]
  omega

lemma rowSelect_mem_lt (row : List ℚ) (NN : ℕ) :
    ∀ j ∈ rowSelect row NN, j < row.length := by
  intro j hj
  rw [rowSelect_eq_take] at hj
  have hmem := (sorted_map_snd_perm row).mem_iff.mp (List.mem_of_mem_take hj)
  simpa using hmem

lemma knn_row_count (row : List ℚ) (NN : ℕ) (h : NN ≤ row.length) :
    ((List.range row.length).map
      (fun j => if j ∈ rowSelect row NN then 1 else 0)).count 1 = NN := by
  rw [List.count_eq_countP, List.countP_map]
  have hp : ((fun x => x == 1) ∘
        fun j => if j ∈ rowSelect row NN then (1 : ℕ) else 0)
      = fun j => decide (j ∈ rowSelect row NN) := by
    funext j
    by_cases hj : j ∈ rowSelect row NN <;> simp [hj]
  rw [hp, List.countP_eq_length_filter]
  have hperm : ((List.range row.length).filter
        (fun j => decide (j ∈ rowSelect row NN))).Perm (rowSelect row NN) := by
    apply List.perm_of_nodup_nodup_toFinset_eq
    · exact (List.nodup_range _).filter _
    · exact rowSelect_nodup row NN
    · ext a
      simp only [List.mem_toFinset, List.mem_filter, List.mem_range,
        decide_eq_true_eq]
      exact ⟨fun hh => hh.2, fun hh => ⟨rowSelect_mem_lt row NN a hh, hh⟩⟩
  rw [hperm.length_eq, rowSelect_length row NN h]

lemma mem_rowPairs (row : List ℚ) (p : ℚ × ℕ) (hp : p ∈ rowPairs row) :
    p.2 < row.length ∧ p.1 = row.getD p.2 0 := by
  simp only [rowPairs, List.mem_map] at hp
  obtain ⟨q, hq, rfl⟩ := hp
  have hsome := List.mem_enum_iff_getElem?.mp hq
  have hlt : q.1 < row.length := by
    by_contra hge
    rw [List.getElem?_eq_none (le_of_not_lt hge)] at hsome
    exact Option.noConfusion hsome
  refine ⟨hlt, ?_⟩
  rw [List.getD_eq_getElem?_getD, hsome]
  rfl

lemma exists_sorted_pair (row : List ℚ) (j : ℕ) (hj : j < row.length) :
    ∃ p ∈ (rowPairs row).insertionSort pairLe, p.2 = j := by
  have hj' : j ∈ ((rowPairs row).insertionSort pairLe).map Prod.snd :=
    (sorted_map_snd_perm row).mem_iff.mpr (List.mem_range.mpr hj)
  simpa using List.mem_map.mp hj'

lemma knn_row_placement (row : List ℚ) (NN : ℕ) (j1 j2 : ℕ)
    (h1 : j1 ∈ rowSelect row NN) (hj2 : j2 < row.length)
    (h2 : j2 ∉ rowSelect row NN) :
    row.getD j1 0 ≤ row.getD j2 0 := by
  obtain ⟨p1, hp1take, hp1snd⟩ := List.mem_map.mp h1
  obtain ⟨p2, hp2S, hp2snd⟩ := exists_sorted_pair row j2 hj2
  have hp2drop : p2 ∈ ((rowPairs row).insertionSort pairLe).drop NN := by
    have hsplit : p2 ∈ ((rowPairs row).insertionSort pairLe).take NN ++
        ((rowPairs row).insertionSort pairLe).drop NN := by
      rw [List.take_append_drop]
      exact hp2S
    rcases List.mem_append.mp hsplit with hin | hin
    · exfalso
      apply h2
      rw [rowSelect]
      rw [← hp2snd]
      exact List.mem_map_of_mem Prod.snd hin
    · exact hin
  have hsorted := List.sorted_insertionSort pairLe (rowPairs row)
  have hpw : List.Pairwise pairLe
      (((rowPairs row).insertionSort pairLe).take NN ++
        ((rowPairs row).insertionSort pairLe).drop NN) := by
    rw [List.take_append_drop]
    exact hsorted
  have hcross : pairLe p1 p2 :=
    (List.pairwise_append.mp hpw).2.2 p1 hp1take p2 hp2drop
  have hv1 := mem_rowPairs row p1
    ((List.perm_insertionSort pairLe _).mem_iff.mp (List.mem_of_mem_take hp1take))
  have hv2 := mem_rowPairs row p2
    ((List.perm_insertionSort pairLe _).mem_iff.mp hp2S)
  have hle : p1.1 ≤ p2.1 := by
    rcases hcross with hlt | ⟨heq, _⟩
    · exact le_of_lt hlt
    · exact le_of_eq heq
  rw [← hp1snd, ← hp2snd, ← hv1.2, ← hv2.2]
  exact hle


/-- Claim C6: when the neighbor count NNeighbs (round(Kappa·M) for
0 < Kappa < 1, Kappa itself for Kappa ≥ 1) satisfies 0 < NNeighbs < M,
every row i of `CSMToBinary(D, Kappa)` has length M, exactly NNeighbs
entries equal to 1, all other entries 0, and the 1s sit at columns holding
the NNeighbs smallest values of row i of D: any column carrying a 1 has a
value ≤ any column carrying a 0 (ties at the boundary broken by the
partition order). -/
theorem C6_knn_binarization (D : List (List ℚ)) (K : ℚ) (i : ℕ)
    (hi : i < D.length) (hrect : ∀ row ∈ D, row.length = shape2 D)
    (hNN : 0 < NNeighbsOf K (shape2 D))
    (hNM : NNeighbsOf K (shape2 D) < shape2 D) :
    ((CSMToBinary D K).getD i []).length = shape2 D ∧
    ((CSMToBinary D K).getD i []).count 1 = NNeighbsOf K (shape2 D) ∧
    (∀ j1 j2, j1 < shape2 D → j2 < shape2 D →
      ((CSMToBinary D K).getD i []).getD j1 0 = 1 →
      ((CSMToBinary D K).getD i []).getD j2 0 = 0 →
      (D.getD i []).getD j1 0 ≤ (D.getD i []).getD j2 0) := by
  have hK0 : K ≠ 0 := by
    intro h
    subst h
    have h0 : NNeighbsOf 0 (shape2 D) = 0 := by
      norm_num [NNeighbsOf, npRound]
    omega
  have hrowlen : (D.getD i []).length = shape2 D := by
    rw [List.getD_eq_getElem D [] hi]
    exact hrect _ (List.getElem_mem hi)
  have hout : (CSMToBinary D K).getD i []
      = (List.range (shape2 D)).map
          (fun j => if j ∈ rowSelect (D.getD i [])
              (NNeighbsOf K (shape2 D)) then 1 else 0) := by
    rw [CSMToBinary, if_neg hK0]
    rw [List.getD_eq_getElem (D.map _) [] (by simpa using hi),
      List.getElem_map, List.getD_eq_getElem D [] hi]
  refine ⟨?_, ?_, ?_⟩
  · rw [hout]
    simp
  · rw [hout]
    have hcount := knn_row_count (D.getD i []) (NNeighbsOf K (shape2 D))
      (by omega)
    rw [hrowlen] at hcount
    exact hcount
  · intro j1 j2 hj1 hj2 e1 e2
    have hget : ∀ j, j < shape2 D →
        ((List.range (shape2 D)).map
          (fun j2 => if j2 ∈ rowSelect (D.getD i [])
              (NNeighbsOf K (shape2 D)) then (1 : ℕ) else 0)).getD j 0
        = if j ∈ rowSelect (D.getD i []) (NNeighbsOf K (shape2 D))
          then 1 else 0 := by
      intro j hj
      rw [List.getD_eq_getElem?_getD, List.getElem?_map, List.getElem?_range hj]
      rfl
    rw [hout, hget j1 hj1] at e1
    rw [hout, hget j2 hj2] at e2
    have hm1 : j1 ∈ rowSelect (D.getD i []) (NNeighbsOf K (shape2 D)) := by
      by_contra hc
      rw [if_neg hc] at e1
      exact absurd e1 (by norm_num)
    have hm2 : j2 ∉ rowSelect (D.getD i []) (NNeighbsOf K (shape2 D)) := by
      intro hc
      rw [if_pos hc] at e2
      exact absurd e2 (by norm_num)
    exact knn_row_placement _ _ j1 j2 hm1 (by omega) hm2

/-- Witness for claim C6 at D = [[1, 0]] and Kappa = 1/2: M = 2,
NNeighbs = round(1) = 1. -/
theorem C6_knn_binarization_witness :
    0 < List.length [[(1 : ℚ), 0]] ∧
    (∀ row ∈ [[(1 : ℚ), 0]], row.length = shape2 [[(1 : ℚ), 0]]) ∧
    0 < NNeighbsOf (1/2) (shape2 [[(1 : ℚ), 0]]) ∧
    NNeighbsOf (1/2) (shape2 [[(1 : ℚ), 0]]) < shape2 [[(1 : ℚ), 0]] ∧
    (((CSMToBinary [[(1 : ℚ), 0]] (1/2)).getD 0 []).length
        = shape2 [[(1 : ℚ), 0]] ∧
     ((CSMToBinary [[(1 : ℚ), 0]] (1/2)).getD 0 []).count 1
        = NNeighbsOf (1/2) (shape2 [[(1 : ℚ), 0]]) ∧
     (∀ j1 j2, j1 < shape2 [[(1 : ℚ), 0]] → j2 < shape2 [[(1 : ℚ), 0]] →
       ((CSMToBinary [[(1 : ℚ), 0]] (1/2)).getD 0 []).getD j1 0 = 1 →
       ((CSMToBinary [[(1 : ℚ), 0]] (1/2)).getD 0 []).getD j2 0 = 0 →
       (([[(1 : ℚ), 0]]).getD 0 []).getD j1 0 ≤
         (([[(1 : ℚ), 0]]).getD 0 []).getD j2 0)) := by
  have hM : shape2 [[(1 : ℚ), 0]] = 2 := rfl
  have hN : NNeighbsOf (1/2) (shape2 [[(1 : ℚ), 0]]) = 1 := by
    rw [hM]
    norm_num [NNeighbsOf, npRound]
  refine ⟨by norm_num, ?_, by rw [hN]; norm_num, by rw [hN, hM]; norm_num, ?_⟩
  · intro row hr
    simp only [List.mem_singleton] at hr
    subst hr
    rfl
  · exact C6_knn_binarization [[(1 : ℚ), 0]] (1/2) 0 (by norm_num)
      (by intro row hr
          simp only [List.mem_singleton] at hr
          subst hr
          rfl)
      (by rw [hN]; norm_num) (by rw [hN, hM]; norm_num)
